import Mathlib

/-!
Shallow embedding of the `processExcel` pipeline of `src/FileSplit.tsx`.

A spreadsheet row is modelled as the ordered association list of its
column/value pairs, exactly as `XLSX.utils.sheet_to_json` produces JS objects
whose cell values are all strings (`raw: false`, `defval: ''`).  A JS plain
object used as a dictionary is modelled as an association list in property
creation order, together with the ECMAScript enumeration rule (array-index
keys first, ascending; then creation order) applied at `Object.keys` /
`Object.entries` time.
-/

/-- A row record: ordered mapping from column name to string cell value. -/
abbrev Row := List (String × String)

/-- JavaScript `String.prototype.trim`: drop whitespace from both ends. -/
def jsTrim (s : String) : String :=
  ⟨((s.data.dropWhile Char.isWhitespace).reverse.dropWhile Char.isWhitespace).reverse⟩

/-- JavaScript `String.prototype.toUpperCase`, restricted to ASCII letters. -/
def jsToUpper (s : String) : String :=
  ⟨s.data.map Char.toUpper⟩

/-- Property access `row[k]` guarded by `|| ''`: a missing key yields `""`,
and an empty-string value also yields `""`. -/
def getCell (row : Row) (k : String) : String :=
  match row with
  | [] => ""
  | (k₁, v) :: rest => if k₁ = k then v else getCell rest k

/-- `row.hasOwnProperty(k)` (line 110). -/
def hasColumn (row : Row) (k : String) : Bool :=
  match row with
  | [] => false
  | (k₁, _) :: rest => k₁ == k || hasColumn rest k

/-- Line 119: `String(row.FinalStatus || '').toUpperCase().trim() === 'DELIVERED'`. -/
def statusMatches (row : Row) : Bool :=
  jsTrim (jsToUpper (getCell row "FinalStatus")) == "DELIVERED"

/-- Lines 118–120: `jsonData.filter(...)` keeping only delivered rows. -/
def filterDelivered (rows : List Row) : List Row :=
  rows.filter statusMatches

/-- Line 135: `String(row.FleeName || 'undefined').trim()`.  The
`|| 'undefined'` fallback fires on a missing or empty-string cell, and it
fires before trimming. -/
def fleeKey (row : Row) : String :=
  jsTrim (if getCell row "FleeName" == "" then "undefined" else getCell row "FleeName")

/-- Lines 136–139: insert a row into the creation-ordered group map; append to
the group of key `k` when present, otherwise create that group at the end. -/
def insertGroup (m : List (String × List Row)) (k : String) (r : Row) :
    List (String × List Row) :=
  match m with
  | [] => [(k, [r])]
  | (k₁, rs) :: rest =>
      if k₁ = k then (k₁, rs ++ [r]) :: rest else (k₁, rs) :: insertGroup rest k r

/-- Lines 133–140: `groupedData` built by `deliveredData.forEach`, as the
property-creation-ordered association list of a JS plain object. -/
def groupByFlee (rows : List Row) : List (String × List Row) :=
  rows.foldl (fun m r => insertGroup m (fleeKey r) r) []

/-- Lookup in the group map. -/
def findGroup (m : List (String × List Row)) (k : String) : Option (List Row) :=
  match m with
  | [] => none
  | (k₁, v) :: rest => if k₁ = k then some v else findGroup rest k

/-- Value of a decimal digit list, most significant digit first. -/
def digitsVal (l : List Char) : Nat :=
  l.foldl (fun a c => 10 * a + (c.toNat - 48)) 0

/-- ECMAScript array-index test on a property key: a canonical decimal numeral
whose value is below `2^32 - 1`.  Keys of this shape enumerate before all
other keys, in ascending numeric order. -/
def arrayIndexVal (s : String) : Option Nat :=
  match s.data with
  | [] => none
  | c :: cs =>
      if (c :: cs).all Char.isDigit ∧ (c = '0' → cs = []) then
        if digitsVal (c :: cs) < 4294967295 then some (digitsVal (c :: cs)) else none
      else none

/-- Insert into a list sorted ascending by array-index value. -/
def insertByVal (p : String × List Row) (l : List (String × List Row)) :
    List (String × List Row) :=
  match l with
  | [] => [p]
  | q :: rest =>
      if (arrayIndexVal p.1).getD 0 ≤ (arrayIndexVal q.1).getD 0 then p :: q :: rest
      else q :: insertByVal p rest

/-- Insertion sort ascending by array-index value. -/
def sortByVal (l : List (String × List Row)) : List (String × List Row) :=
  l.foldr insertByVal []

/-- Enumeration order of `Object.entries` / `Object.keys` on a JS plain
object: array-index-like keys first in ascending numeric order, then the
remaining keys in property creation order. -/
def jsEntries (m : List (String × List Row)) : List (String × List Row) :=
  sortByVal (m.filter fun p => (arrayIndexVal p.1).isSome) ++
    (m.filter fun p => (arrayIndexVal p.1).isNone)

/-- `delete newRow[k]` on a spread copy: drop the pair with key `k`, the
relative order of all other pairs preserved. -/
def removeKey (row : Row) (k : String) : Row :=
  row.filter fun p => p.1 != k

/-- Lines 156–161: copy the row and delete the `sync time` and
`planDeliveryDate` columns. -/
def projectRow (row : Row) : Row :=
  removeKey (removeKey row "sync time") "planDeliveryDate"

/-- The filesystem-illegal characters replaced in filenames (line 183). -/
def isIllegalChar (c : Char) : Bool :=
  c == '<' || c == '>' || c == ':' || c == '"' || c == '/' || c == '\\' ||
    c == '|' || c == '?' || c == '*'

/-- Line 183, the `replace` regex pass: every illegal character becomes `_`. -/
def sanitize (s : String) : String :=
  ⟨s.data.map fun c => if isIllegalChar c then '_' else c⟩

/-- Line 183: `fleeName.replace(/.../g, '_').trim()`. -/
def cleanName (s : String) : String :=
  jsTrim (sanitize s)

/-- Line 186: the archive entry name, `cleanFleeName` plus the `.xlsx`
extension. -/
def entryName (k : String) : String :=
  cleanName k ++ ".xlsx"

/-- `zip.file(name, payload)` on a JSZip archive modelled as the ordered list
of its entries: a repeated name overwrites that entry's payload in place. -/
def zipAdd (z : List (String × List Row)) (name : String) (payload : List Row) :
    List (String × List Row) :=
  match z with
  | [] => [(name, payload)]
  | (n₁, p₁) :: rest =>
      if n₁ = name then (n₁, payload) :: rest else (n₁, p₁) :: zipAdd rest name payload

/-- The export loop of lines 151–191: one `zip.file` call per enumerated
group, the payload being the group's projected rows. -/
def buildArchive (entries : List (String × List Row)) : List (String × List Row) :=
  entries.foldl (fun z p => zipAdd z (entryName p.1) (p.2.map projectRow)) []

/-- Line 169, `Object.keys(filteredData[0])`: the writer derives the header
list from element 0 of the projected group; `none` models the fault that
would occur on an empty group. -/
def writerHeaders (projected : List Row) : Option (List String) :=
  match projected with
  | [] => none
  | r :: _ => some (r.map Prod.fst)

/-- Lines 189–190, `Math.round(60 + (processedFiles / fileCount) * 30)`, as
exact arithmetic: the floor of `60 + 30 i / n + 1 / 2`. -/
def roundProgress (i n : Nat) : Nat :=
  (121 * n + 60 * i) / (2 * n)

/-- First occurrence of each string, in order of first appearance after the
strings already `seen`. -/
def firstSeen (seen : List String) : List String → List String
  | [] => []
  | x :: xs => if x ∈ seen then firstSeen seen xs else x :: firstSeen (x :: seen) xs

/-- Keys of a row sequence in first-occurrence order: the order the spec
asserts for group enumeration. -/
def firstSeenKeys (rows : List Row) : List String :=
  firstSeen [] (rows.map fleeKey)

/-- The error classifications of the pipeline's three explicit failure exits
(lines 99–104, 110–115, 122–127). -/
inductive PipelineError where
  | empty
  | missingColumn (col : String)
  | noMatches
  deriving DecidableEq, Repr

/-- The success payload (lines 215–219): archive, `totalRows`, `uniqueFiles`
and the `fileNames` preview. -/
structure SuccessResult where
  archive : List (String × List Row)
  totalRows : Nat
  uniqueFiles : Nat
  fileNames : List String
  deriving DecidableEq, Repr

/-- A pipeline run: final result plus the emitted progress percentages. -/
structure PipelineOutput where
  result : Except PipelineError SuccessResult
  progress : List Nat
  deriving Repr

instance {ε α : Type} [DecidableEq ε] [DecidableEq α] : DecidableEq (Except ε α) := fun a b =>
  match a, b with
  | .error e, .error f =>
      if h : e = f then .isTrue (by rw [h]) else .isFalse fun hh => h (Except.error.inj hh)
  | .ok x, .ok y =>
      if h : x = y then .isTrue (by rw [h]) else .isFalse fun hh => h (Except.ok.inj hh)
  | .error _, .ok _ => .isFalse fun hh => Except.noConfusion hh
  | .ok _, .error _ => .isFalse fun hh => Except.noConfusion hh

/-- The core of `processExcel` (lines 99–223), from the parsed row list to the
final result and the emitted progress percentages. -/
def processExcel (jsonData : List Row) : PipelineOutput :=
  if jsonData.length = 0 then
    { result := .error .empty, progress := [10, 25] }
  else if !hasColumn (jsonData.headD []) "FleeName" then
    { result := .error (.missingColumn "FleeName"), progress := [10, 25, 40] }
  else
    let delivered := filterDelivered jsonData
    if delivered.length = 0 then
      { result := .error .noMatches, progress := [10, 25, 40] }
    else
      let entries := jsEntries (groupByFlee delivered)
      let fileCount := entries.length
      { result := .ok
          { archive := buildArchive entries
            totalRows := delivered.length
            uniqueFiles := fileCount
            fileNames := (entries.map Prod.fst).take 10 }
        progress := [10, 25, 40, 50, 60] ++
          (List.range fileCount).map (fun i => roundProgress (i + 1) fileCount) ++
          [95, 100] }

/-- Concrete inputs used by the counterexample and witness theorems below. -/
def c2row : Row := [("FinalStatus", "DELIVERED"), ("FleeName", " ")]

def c3rows : List Row :=
  [[("FleeName", "10"), ("FinalStatus", "DELIVERED")],
   [("FleeName", "2"), ("FinalStatus", "DELIVERED")]]

def c5rows : List Row :=
  [[("FleeName", "A/B"), ("FinalStatus", "DELIVERED")],
   [("FleeName", "A:B"), ("FinalStatus", "DELIVERED")]]

def c6rows : List Row :=
  [[("FleeName", "ka"), ("FinalStatus", "DELIVERED")],
   [("FleeName", "kb"), ("FinalStatus", "DELIVERED")],
   [("FleeName", "kc"), ("FinalStatus", "DELIVERED")],
   [("FleeName", "kd"), ("FinalStatus", "DELIVERED")],
   [("FleeName", "ke"), ("FinalStatus", "DELIVERED")],
   [("FleeName", "kf"), ("FinalStatus", "DELIVERED")],
   [("FleeName", "kg"), ("FinalStatus", "DELIVERED")],
   [("FleeName", "kh"), ("FinalStatus", "DELIVERED")],
   [("FleeName", "ki"), ("FinalStatus", "DELIVERED")],
   [("FleeName", "kj"), ("FinalStatus", "DELIVERED")],
   [("FleeName", "kk"), ("FinalStatus", "DELIVERED")]]

def c8row : Row := [("FinalStatus", "IN_TRANSIT")]

/-! ## Character-level lemmas -/

theorem toNat_toUpper_shift (c : Char) (h : 97 ≤ c.toNat ∧ c.toNat ≤ 122) :
    (Char.ofNat (c.toNat - 32)).toNat = c.toNat - 32 := by
  have hv : (c.toNat - 32).isValidChar := Or.inl (by omega)
  rw [Char.ofNat, dif_pos hv]
  rfl

theorem isWhitespace_eq_false_of_toNat (d : Char) (h32 : d.toNat ≠ 32) (h9 : d.toNat ≠ 9)
    (h13 : d.toNat ≠ 13) (h10 : d.toNat ≠ 10) : d.isWhitespace = false := by
  simp only [Char.isWhitespace, Bool.or_eq_false_iff, decide_eq_false_iff_not]
  refine ⟨⟨⟨?_, ?_⟩, ?_⟩, ?_⟩ <;> intro heq <;> subst heq
  · exact h32 rfl
  · exact h9 rfl
  · exact h13 rfl
  · exact h10 rfl

theorem isWhitespace_toUpper (c : Char) : c.toUpper.isWhitespace = c.isWhitespace := by
  show (if c.toNat ≥ 97 ∧ c.toNat ≤ 122 then Char.ofNat (c.toNat - 32) else c).isWhitespace =
    c.isWhitespace
  split
  case isTrue h =>
    have h1 := toNat_toUpper_shift c h
    rw [isWhitespace_eq_false_of_toNat _ (by omega) (by omega) (by omega) (by omega),
      isWhitespace_eq_false_of_toNat c (by omega) (by omega) (by omega) (by omega)]
  case isFalse h => rfl

/-! ## Trim/uppercase commutation -/

theorem dropWhile_ws_map_toUpper (l : List Char) :
    (l.map Char.toUpper).dropWhile Char.isWhitespace =
      (l.dropWhile Char.isWhitespace).map Char.toUpper := by
  induction l with
  | nil => rfl
  | cons c cs ih =>
      simp only [List.map_cons, List.dropWhile_cons, isWhitespace_toUpper]
      cases h : c.isWhitespace <;> simp [h, ih]

theorem jsTrim_jsToUpper (s : String) : jsTrim (jsToUpper s) = jsToUpper (jsTrim s) := by
  show String.mk _ = String.mk _
  unfold jsTrim jsToUpper
  rw [show (String.mk (s.data.map Char.toUpper)).data = s.data.map Char.toUpper from rfl,
    dropWhile_ws_map_toUpper, ← List.map_reverse, dropWhile_ws_map_toUpper, ← List.map_reverse]

/-! ## Cell access lemmas -/

theorem getCell_eq_empty_of_not_hasColumn (row : Row) (k : String)
    (h : hasColumn row k = false) : getCell row k = "" := by
  induction row with
  | nil => rfl
  | cons p rest ih =>
      obtain ⟨k₁, v⟩ := p
      unfold hasColumn at h
      rw [Bool.or_eq_false_iff] at h
      unfold getCell
      rw [if_neg (by simpa using h.1)]
      exact ih h.2

/-- C1: `RowFilter` keeps exactly the rows whose `FinalStatus` cell, after
trimming, equals `DELIVERED` case-insensitively; a missing `FinalStatus` cell
behaves as the empty string and never matches; the output is a subsequence of
the input with relative order preserved. -/
theorem c1_rowfilter_delivered (rows : List Row) :
    filterDelivered rows =
      rows.filter (fun r => jsToUpper (jsTrim (getCell r "FinalStatus")) == "DELIVERED") ∧
    (filterDelivered rows).Sublist rows ∧
    (∀ r : Row, hasColumn r "FinalStatus" = false →
      getCell r "FinalStatus" = "" ∧ statusMatches r = false) := by
  refine ⟨?_, List.filter_sublist rows, ?_⟩
  · refine List.filter_congr fun r _ => ?_
    unfold statusMatches
    rw [jsTrim_jsToUpper]
  · intro r hr
    have h := getCell_eq_empty_of_not_hasColumn r _ hr
    refine ⟨h, ?_⟩
    unfold statusMatches
    rw [h]
    rfl

/-- C1 witness: a row without a `FinalStatus` column is never kept. -/
theorem c1_rowfilter_delivered_witness :
    statusMatches [("Other", "x")] = false :=
  ((c1_rowfilter_delivered []).2.2 [("Other", "x")] (by decide)).2

/-- C2 counterexample: a whitespace-only `FleeName` value is empty after
trimming, yet its group key is `""`, not the literal `"undefined"`. -/
theorem c2_counterexample :
    jsTrim (getCell c2row "FleeName") = "" ∧ fleeKey c2row = "" ∧
      fleeKey c2row ≠ "undefined" := by
  refine ⟨rfl, rfl, ?_⟩
  decide

/-- C2 (amended): the group key is the trimmed `FleeName` value when the raw
value is non-empty, and the literal `"undefined"` only when the raw value is
missing or the empty string before trimming; a whitespace-only raw value is
keyed by the empty string. -/
theorem c2_group_key (row : Row) :
    fleeKey row =
      (if getCell row "FleeName" = "" then "undefined"
        else jsTrim (getCell row "FleeName")) ∧
    (getCell row "FleeName" ≠ "" → jsTrim (getCell row "FleeName") = "" →
      fleeKey row = "") := by
  have hmain : fleeKey row =
      (if getCell row "FleeName" = "" then "undefined"
        else jsTrim (getCell row "FleeName")) := by
    unfold fleeKey
    by_cases h : getCell row "FleeName" = ""
    · rw [if_pos h, if_pos (by simpa using h)]
      rfl
    · rw [if_neg h, if_neg (by simpa using h)]
  refine ⟨hmain, fun h1 h2 => ?_⟩
  rw [hmain, if_neg h1, h2]

/-- C2 witness: a concrete whitespace-only `FleeName` value keys to `""`. -/
theorem c2_group_key_witness : fleeKey [("FleeName", " ")] = "" :=
  (c2_group_key [("FleeName", " ")]).2 (by decide) (by decide)

/-- C4: projection removes exactly the `sync time` and `planDeliveryDate`
columns when present, is a no-op on their absence, and leaves the presence,
value and relative order of every other column unchanged. -/
theorem c4_projection (row : Row) :
    projectRow row =
      row.filter (fun p => !(p.1 == "sync time" || p.1 == "planDeliveryDate")) ∧
    (projectRow row).Sublist row ∧
    (∀ p ∈ row, p.1 ≠ "sync time" → p.1 ≠ "planDeliveryDate" → p ∈ projectRow row) ∧
    (∀ p ∈ projectRow row, p ∈ row ∧ p.1 ≠ "sync time" ∧ p.1 ≠ "planDeliveryDate") := by
  have hmain : projectRow row =
      row.filter (fun p => !(p.1 == "sync time" || p.1 == "planDeliveryDate")) := by
    unfold projectRow removeKey
    rw [List.filter_filter]
    refine List.filter_congr fun p _ => ?_
    cases h1 : p.1 == "sync time" <;> cases h2 : p.1 == "planDeliveryDate" <;>
      simp [bne, h1, h2]
  refine ⟨hmain, hmain ▸ List.filter_sublist row, fun p hp h1 h2 => ?_, fun p hp => ?_⟩
  · rw [hmain, List.mem_filter]
    exact ⟨hp, by simp [h1, h2]⟩
  · rw [hmain, List.mem_filter] at hp
    refine ⟨hp.1, ?_, ?_⟩ <;> have := hp.2 <;> simp at this <;> tauto

/-- C4 witness: a pair in neither excluded column survives projection. -/
theorem c4_projection_witness :
    ("A", "1") ∈ projectRow [("A", "1"), ("sync time", "x")] :=
  (c4_projection [("A", "1"), ("sync time", "x")]).2.2.1 ("A", "1") (by decide)
    (by decide) (by decide)

/-- C7: reading fails with `Empty` exactly on zero parsed rows, and otherwise
fails with `MissingColumn "FleeName"` exactly when the first row's key set
lacks the `FleeName` column; in either case no success payload is produced. -/
theorem c7_read_errors (jsonData : List Row) :
    ((processExcel jsonData).result = .error .empty ↔ jsonData = []) ∧
    ((processExcel jsonData).result = .error (.missingColumn "FleeName") ↔
      jsonData ≠ [] ∧ hasColumn (jsonData.headD []) "FleeName" = false) := by
  unfold processExcel
  by_cases h1 : jsonData.length = 0
  · have hnil : jsonData = [] := List.length_eq_zero.mp h1
    subst hnil
    simp
  · have hne : jsonData ≠ [] := fun h => h1 (by simp [h])
    by_cases h2 : hasColumn (jsonData.headD []) "FleeName"
    · have h2x : hasColumn (jsonData.head?.getD []) "FleeName" = true := by
        simpa [List.headD_eq_head?_getD] using h2
      by_cases h3 : (filterDelivered jsonData).length = 0 <;>
        simp [h1, h2x, h3, hne, List.headD_eq_head?_getD]
    · have h2x : hasColumn (jsonData.head?.getD []) "FleeName" = false := by
        simpa [List.headD_eq_head?_getD, Bool.not_eq_true] using h2
      simp [h1, h2x, hne, List.headD_eq_head?_getD]

/-- C7 witness: the empty input fails with the `Empty` read error. -/
theorem c7_read_errors_witness :
    (processExcel []).result = .error .empty :=
  (c7_read_errors []).1.mpr rfl

/-! ## Group map lemmas -/

theorem findGroup_insertGroup_self (m : List (String × List Row)) (k : String) (r : Row) :
    findGroup (insertGroup m k r) k = some ((findGroup m k).getD [] ++ [r]) := by
  induction m with
  | nil => simp [insertGroup, findGroup]
  | cons p rest ih =>
      obtain ⟨k₁, rs⟩ := p
      unfold insertGroup
      by_cases h : k₁ = k
      · subst h
        simp [findGroup]
      · rw [if_neg h]
        unfold findGroup
        rw [if_neg h, if_neg h]
        exact ih

theorem findGroup_insertGroup_ne (m : List (String × List Row)) (k k₂ : String) (r : Row)
    (h : k₂ ≠ k) : findGroup (insertGroup m k r) k₂ = findGroup m k₂ := by
  induction m with
  | nil => simp [insertGroup, findGroup, if_neg (Ne.symm h)]
  | cons p rest ih =>
      obtain ⟨k₁, rs⟩ := p
      unfold insertGroup
      by_cases h1 : k₁ = k
      · subst h1
        rw [if_pos rfl]
        simp only [findGroup]
        rw [if_neg (Ne.symm h), if_neg (Ne.symm h)]
      · rw [if_neg h1]
        simp only [findGroup]
        by_cases h2 : k₁ = k₂
        · rw [if_pos h2, if_pos h2]
        · rw [if_neg h2, if_neg h2]
          exact ih

theorem findGroup_eq_none_iff (m : List (String × List Row)) (k : String) :
    findGroup m k = none ↔ k ∉ m.map Prod.fst := by
  induction m with
  | nil => simp [findGroup]
  | cons p rest ih =>
      obtain ⟨k₁, rs⟩ := p
      unfold findGroup
      by_cases h : k₁ = k
      · subst h
        simp
      · rw [if_neg h]
        simp [ih, Ne.symm h]

theorem keys_insertGroup (m : List (String × List Row)) (k : String) (r : Row) :
    (insertGroup m k r).map Prod.fst =
      if findGroup m k = none then m.map Prod.fst ++ [k] else m.map Prod.fst := by
  induction m with
  | nil => simp [insertGroup, findGroup]
  | cons p rest ih =>
      obtain ⟨k₁, rs⟩ := p
      simp only [insertGroup, findGroup]
      by_cases h : k₁ = k
      · subst h
        simp
      · simp only [if_neg h, List.map_cons, ih]
        by_cases h2 : findGroup rest k = none <;> simp [h2]

theorem firstSeen_congr (l : List String) (s₁ s₂ : List String)
    (h : ∀ x, x ∈ s₁ ↔ x ∈ s₂) : firstSeen s₁ l = firstSeen s₂ l := by
  induction l generalizing s₁ s₂ with
  | nil => rfl
  | cons x xs ih =>
      simp only [firstSeen]
      by_cases hx : x ∈ s₁
      · rw [if_pos hx, if_pos ((h x).mp hx)]
        exact ih s₁ s₂ h
      · rw [if_neg hx, if_neg (fun hh => hx ((h x).mpr hh))]
        rw [ih (x :: s₁) (x :: s₂) (by intro y; simp [h y])]

theorem keys_foldl_insert (rows : List Row) (m : List (String × List Row)) :
    (rows.foldl (fun m r => insertGroup m (fleeKey r) r) m).map Prod.fst =
      m.map Prod.fst ++ firstSeen (m.map Prod.fst) (rows.map fleeKey) := by
  induction rows generalizing m with
  | nil => simp [firstSeen]
  | cons r rs ih =>
      rw [List.foldl_cons, ih, List.map_cons]
      simp only [firstSeen]
      by_cases h : findGroup m (fleeKey r) = none
      · have hk : fleeKey r ∉ m.map Prod.fst := (findGroup_eq_none_iff m _).mp h
        rw [keys_insertGroup, if_pos h, if_neg hk]
        rw [firstSeen_congr _ (m.map Prod.fst ++ [fleeKey r]) (fleeKey r :: m.map Prod.fst)
          (by intro x; simp [or_comm])]
        simp
      · have hk : fleeKey r ∈ m.map Prod.fst := by
          by_contra hc
          exact h ((findGroup_eq_none_iff m _).mpr hc)
        rw [keys_insertGroup, if_neg h, if_pos hk]

theorem foldl_insert_findGroup (rows : List Row) (m : List (String × List Row)) (k : String) :
    (findGroup (rows.foldl (fun m r => insertGroup m (fleeKey r) r) m) k).getD [] =
      (findGroup m k).getD [] ++ rows.filter (fun r => fleeKey r == k) := by
  induction rows generalizing m with
  | nil => simp
  | cons r rs ih =>
      rw [List.foldl_cons, ih]
      by_cases h : fleeKey r = k
      · subst h
        rw [findGroup_insertGroup_self]
        simp [List.filter_cons]
      · rw [findGroup_insertGroup_ne _ _ _ _ (Ne.symm h)]
        simp [List.filter_cons, h]

theorem keys_nodup_insertGroup (m : List (String × List Row)) (k : String) (r : Row)
    (h : (m.map Prod.fst).Nodup) : ((insertGroup m k r).map Prod.fst).Nodup := by
  rw [keys_insertGroup]
  by_cases h2 : findGroup m k = none
  · rw [if_pos h2]
    have hk : k ∉ m.map Prod.fst := (findGroup_eq_none_iff m k).mp h2
    rw [(List.perm_append_singleton k (m.map Prod.fst)).nodup_iff]
    exact List.nodup_cons.mpr ⟨hk, h⟩
  · rw [if_neg h2]
    exact h

theorem keys_nodup_foldl (rows : List Row) (m : List (String × List Row))
    (h : (m.map Prod.fst).Nodup) :
    (((rows.foldl (fun m r => insertGroup m (fleeKey r) r) m)).map Prod.fst).Nodup := by
  induction rows generalizing m with
  | nil => exact h
  | cons r rs ih =>
      rw [List.foldl_cons]
      exact ih _ (keys_nodup_insertGroup m _ r h)

theorem findGroup_of_mem_nodup (m : List (String × List Row))
    (h : (m.map Prod.fst).Nodup) (p : String × List Row) (hp : p ∈ m) :
    findGroup m p.1 = some p.2 := by
  induction m with
  | nil => cases hp
  | cons q rest ih =>
      obtain ⟨k₁, v⟩ := q
      rcases List.mem_cons.mp hp with heq | hp2
      · subst heq
        simp [findGroup]
      · have hk : k₁ ≠ p.1 := by
          intro hh
          subst hh
          exact (List.nodup_cons.mp (by simpa using h)).1
            (List.mem_map_of_mem Prod.fst hp2)
        simp only [findGroup]
        rw [if_neg hk]
        exact ih (List.nodup_cons.mp (by simpa using h)).2 hp2

theorem flatten_insertGroup (m : List (String × List Row)) (k : String) (r : Row) :
    List.Perm ((insertGroup m k r).map Prod.snd).flatten
      ((m.map Prod.snd).flatten ++ [r]) := by
  induction m with
  | nil => simp [insertGroup]
  | cons q rest ih =>
      obtain ⟨k₁, rs⟩ := q
      unfold insertGroup
      by_cases h : k₁ = k
      · rw [if_pos h]
        simp only [List.map_cons, List.flatten_cons]
        rw [List.append_assoc, List.append_assoc]
        exact List.Perm.append_left rs List.perm_append_comm
      · rw [if_neg h]
        simp only [List.map_cons, List.flatten_cons]
        refine (ih.append_left rs).trans ?_
        rw [← List.append_assoc]

theorem flatten_foldl_insert (rows : List Row) (m : List (String × List Row)) :
    List.Perm ((rows.foldl (fun m r => insertGroup m (fleeKey r) r) m).map Prod.snd).flatten
      ((m.map Prod.snd).flatten ++ rows) := by
  induction rows generalizing m with
  | nil => simp
  | cons r rs ih =>
      rw [List.foldl_cons]
      refine (ih _).trans ?_
      refine ((flatten_insertGroup m (fleeKey r) r).append_right rs).trans ?_
      rw [List.append_assoc]
      exact List.Perm.refl _

/-! ## Enumeration order lemmas -/

theorem insertByVal_perm (p : String × List Row) (l : List (String × List Row)) :
    List.Perm (insertByVal p l) (p :: l) := by
  induction l with
  | nil => exact List.Perm.refl _
  | cons q rest ih =>
      unfold insertByVal
      split
      · exact List.Perm.refl _
      · exact (ih.cons q).trans (List.Perm.swap p q rest)

theorem sortByVal_perm (l : List (String × List Row)) :
    List.Perm (sortByVal l) l := by
  induction l with
  | nil => exact List.Perm.refl _
  | cons q rest ih =>
      show List.Perm (insertByVal q (sortByVal rest)) _
      exact (insertByVal_perm q _).trans (ih.cons q)

theorem jsEntries_perm (m : List (String × List Row)) : List.Perm (jsEntries m) m := by
  unfold jsEntries
  refine ((sortByVal_perm _).append_right _).trans ?_
  have hf : ∀ p : String × List Row,
      ((arrayIndexVal p.1).isNone : Bool) = !(arrayIndexVal p.1).isSome := by
    intro p
    cases arrayIndexVal p.1 <;> rfl
  rw [List.filter_congr (fun a _ => hf a)]
  exact List.filter_append_perm _ m

theorem jsEntries_eq_self (m : List (String × List Row))
    (h : ∀ k ∈ m.map Prod.fst, arrayIndexVal k = none) : jsEntries m = m := by
  unfold jsEntries
  have h1 : m.filter (fun p => (arrayIndexVal p.1).isSome) = [] := by
    refine List.filter_eq_nil_iff.mpr fun p hp => ?_
    simp [h p.1 (List.mem_map_of_mem Prod.fst hp)]
  have h2 : m.filter (fun p => (arrayIndexVal p.1).isNone) = m := by
    refine List.filter_eq_self.mpr fun p hp => ?_
    simp [h p.1 (List.mem_map_of_mem Prod.fst hp)]
  rw [h1, h2]
  rfl

/-- C3 counterexample: with the purely numeric keys `"10"` then `"2"`, the
first-occurrence order is `["10", "2"]` but the groups enumerate as
`["2", "10"]` (array-index keys are hoisted and sorted numerically). -/
theorem c3_counterexample :
    firstSeenKeys (filterDelivered c3rows) = ["10", "2"] ∧
    (jsEntries (groupByFlee (filterDelivered c3rows))).map Prod.fst = ["2", "10"] := by
  exact ⟨by decide, by decide⟩

/-- C3 (amended): grouping is a partition — the creation-ordered map lists
the keys in first-occurrence order, each group holds exactly the filtered
rows with that key in their original order, and the concatenation of all
groups is a permutation of the input; the enumeration handed to the export
loop is a permutation of the groups and coincides with first-occurrence
order whenever no key is an array-index-like numeric string. -/
theorem c3_partition (rows : List Row) :
    (groupByFlee rows).map Prod.fst = firstSeenKeys rows ∧
    (∀ p ∈ groupByFlee rows, p.2 = rows.filter (fun r => fleeKey r == p.1)) ∧
    List.Perm ((groupByFlee rows).map Prod.snd).flatten rows ∧
    List.Perm (jsEntries (groupByFlee rows)) (groupByFlee rows) ∧
    ((∀ k ∈ (groupByFlee rows).map Prod.fst, arrayIndexVal k = none) →
      jsEntries (groupByFlee rows) = groupByFlee rows) := by
  refine ⟨?_, ?_, ?_, jsEntries_perm _, jsEntries_eq_self _⟩
  · have h := keys_foldl_insert rows []
    simpa [groupByFlee, firstSeenKeys] using h
  · intro p hp
    have hnod : ((groupByFlee rows).map Prod.fst).Nodup := by
      have h := keys_nodup_foldl rows [] (by simp)
      simpa [groupByFlee] using h
    have h1 := findGroup_of_mem_nodup _ hnod p hp
    have h2 := foldl_insert_findGroup rows [] p.1
    rw [show (rows.foldl (fun m r => insertGroup m (fleeKey r) r) []) = groupByFlee rows
      from rfl, h1] at h2
    simpa [findGroup] using h2
  · have h := flatten_foldl_insert rows []
    simpa [groupByFlee] using h

/-- C3 witness: on a one-row input with a non-numeric key, enumeration
coincides with the creation order. -/
theorem c3_partition_witness :
    jsEntries (groupByFlee [[("FleeName", "Alice")]]) =
      groupByFlee [[("FleeName", "Alice")]] :=
  (c3_partition [[("FleeName", "Alice")]]).2.2.2.2 (by decide)

/-! ## Non-empty group lemmas -/

theorem insertGroup_snd_ne_nil (m : List (String × List Row)) (k : String) (r : Row)
    (h : ∀ p ∈ m, p.2 ≠ []) : ∀ p ∈ insertGroup m k r, p.2 ≠ [] := by
  induction m with
  | nil =>
      intro p hp
      rcases List.mem_singleton.mp hp with rfl
      simp
  | cons q rest ih =>
      obtain ⟨k₁, rs⟩ := q
      unfold insertGroup
      by_cases hk : k₁ = k
      · rw [if_pos hk]
        intro p hp
        rcases List.mem_cons.mp hp with rfl | hp2
        · simp
        · exact h p (List.mem_cons_of_mem _ hp2)
      · rw [if_neg hk]
        intro p hp
        rcases List.mem_cons.mp hp with rfl | hp2
        · exact h _ (List.mem_cons_self _ _)
        · exact ih (fun q hq => h q (List.mem_cons_of_mem _ hq)) p hp2

theorem foldl_insert_snd_ne_nil (rows : List Row) (m : List (String × List Row))
    (h : ∀ p ∈ m, p.2 ≠ []) :
    ∀ p ∈ rows.foldl (fun m r => insertGroup m (fleeKey r) r) m, p.2 ≠ [] := by
  induction rows generalizing m with
  | nil => exact h
  | cons r rs ih =>
      rw [List.foldl_cons]
      exact ih _ (insertGroup_snd_ne_nil m _ r h)

/-- C10: every group produced by partitioning holds at least one row, so the
per-group writer's header derivation from element 0 of the projected group
always reads a non-empty sequence and never faults. -/
theorem c10_groups_nonempty (rows : List Row) :
    ∀ p ∈ jsEntries (groupByFlee rows),
      p.2 ≠ [] ∧ writerHeaders (p.2.map projectRow) ≠ none := by
  intro p hp
  have hp2 : p ∈ groupByFlee rows := (jsEntries_perm _).mem_iff.mp hp
  have hne : p.2 ≠ [] := by
    have h := foldl_insert_snd_ne_nil rows [] (by simp)
    exact h p (by simpa [groupByFlee] using hp2)
  refine ⟨hne, ?_⟩
  cases hval : p.2 with
  | nil => exact absurd hval hne
  | cons r rest => simp [writerHeaders, hval]

/-- C10 witness: the singleton input's unique group is non-empty and the
writer derives its headers. -/
theorem c10_groups_nonempty_witness :
    ("A", [[("FleeName", "A")]]).2 ≠ ([] : List Row) :=
  (c10_groups_nonempty [[("FleeName", "A")]] ("A", [[("FleeName", "A")]]) (by decide)).1

/-! ## Archive lemmas -/

theorem zipAdd_keys (z : List (String × List Row)) (name : String) (payload : List Row) :
    (zipAdd z name payload).map Prod.fst =
      if name ∈ z.map Prod.fst then z.map Prod.fst else z.map Prod.fst ++ [name] := by
  induction z with
  | nil => simp [zipAdd]
  | cons q rest ih =>
      obtain ⟨n₁, p₁⟩ := q
      simp only [zipAdd]
      by_cases h : n₁ = name
      · subst h
        simp
      · rw [if_neg h]
        simp only [List.map_cons, ih]
        by_cases h2 : name ∈ rest.map Prod.fst
        · rw [if_pos h2, if_pos (by simp [h2])]
        · rw [if_neg h2, if_neg (by simp [Ne.symm h, h2])]
          simp

theorem buildArchive_names_foldl (entries : List (String × List Row))
    (z : List (String × List Row)) :
    ((entries.foldl (fun z p => zipAdd z (entryName p.1) (p.2.map projectRow)) z)).map
        Prod.fst =
      z.map Prod.fst ++ firstSeen (z.map Prod.fst) (entries.map fun p => entryName p.1) := by
  induction entries generalizing z with
  | nil => simp [firstSeen]
  | cons e es ih =>
      rw [List.foldl_cons, ih, List.map_cons]
      simp only [firstSeen]
      by_cases h : entryName e.1 ∈ z.map Prod.fst
      · rw [zipAdd_keys, if_pos h, if_pos h]
      · rw [zipAdd_keys, if_neg h, if_neg h]
        rw [firstSeen_congr _ (z.map Prod.fst ++ [entryName e.1])
          (entryName e.1 :: z.map Prod.fst) (by intro x; simp [or_comm])]
        simp

theorem firstSeen_length_le (seen : List String) (l : List String) :
    (firstSeen seen l).length ≤ l.length := by
  induction l generalizing seen with
  | nil => simp [firstSeen]
  | cons x xs ih =>
      simp only [firstSeen]
      by_cases h : x ∈ seen
      · rw [if_pos h]
        exact (ih seen).trans (Nat.le_succ _)
      · rw [if_neg h]
        simpa using ih (x :: seen)

theorem firstSeen_eq_self (seen : List String) (l : List String) (hnd : l.Nodup)
    (hdisj : ∀ x ∈ l, x ∉ seen) : firstSeen seen l = l := by
  induction l generalizing seen with
  | nil => rfl
  | cons x xs ih =>
      simp only [firstSeen]
      rw [if_neg (hdisj x (List.mem_cons_self x xs))]
      congr 1
      refine ih (x :: seen) (List.nodup_cons.mp hnd).2 ?_
      intro y hy
      simp only [List.mem_cons]
      rintro (rfl | hmem)
      · exact (List.nodup_cons.mp hnd).1 hy
      · exact hdisj y (List.mem_cons_of_mem _ hy) hmem

theorem mem_of_mem_firstSeen (seen : List String) (l : List String) (x : String)
    (h : x ∈ firstSeen seen l) : x ∈ l := by
  induction l generalizing seen with
  | nil => exact absurd h (List.not_mem_nil x)
  | cons y ys ih =>
      simp only [firstSeen] at h
      by_cases hy : y ∈ seen
      · rw [if_pos hy] at h
        exact List.mem_cons_of_mem _ (ih seen h)
      · rw [if_neg hy] at h
        rcases List.mem_cons.mp h with rfl | h2
        · exact List.mem_cons_self _ _
        · exact List.mem_cons_of_mem _ (ih (y :: seen) h2)

theorem mem_data_jsTrim (s : String) (c : Char) (h : c ∈ (jsTrim s).data) : c ∈ s.data := by
  unfold jsTrim at h
  have h1 := List.mem_reverse.mp h
  have h2 := (List.dropWhile_sublist Char.isWhitespace).subset h1
  have h3 := List.mem_reverse.mp h2
  exact (List.dropWhile_sublist Char.isWhitespace).subset h3

theorem isIllegalChar_entryName (k : String) :
    ∀ c ∈ (entryName k).data, isIllegalChar c = false := by
  intro c hc
  unfold entryName at hc
  rw [String.data_append] at hc
  rcases List.mem_append.mp hc with h1 | h2
  · unfold cleanName at h1
    have h3 : c ∈ (sanitize k).data := mem_data_jsTrim _ _ h1
    unfold sanitize at h3
    rcases List.mem_map.mp h3 with ⟨d, _, hd⟩
    by_cases hill : isIllegalChar d
    · rw [if_pos hill] at hd
      rw [← hd]
      rfl
    · rw [if_neg hill] at hd
      rw [← hd]
      exact Bool.not_eq_true _ ▸ (by simpa using hill)
  · have hx : ∀ d ∈ (".xlsx" : String).data, isIllegalChar d = false := by decide
    exact hx c h2

/-- C5 counterexample: the distinct group keys `"A/B"` and `"A:B"` both
sanitize to `"A_B.xlsx"`, so the successful run reports 2 groups but the
archive holds a single entry — entry count does not equal group count. -/
theorem c5_counterexample :
    (processExcel c5rows).result.map (fun res => (res.uniqueFiles, res.archive.length)) =
      Except.ok (2, 1) := by
  decide

/-- C5 (amended): the archive holds exactly one entry per distinct sanitized
name, in first-write order; the entry count is at most the group count, with
equality exactly guaranteed when the sanitized names are pairwise distinct;
every entry name is the sanitized group key plus `.xlsx` and contains none of
the characters replaced by `_`. -/
theorem c5_archive_entries (entries : List (String × List Row)) :
    (buildArchive entries).map Prod.fst =
      firstSeen [] (entries.map fun p => entryName p.1) ∧
    (buildArchive entries).length ≤ entries.length ∧
    ((entries.map fun p => entryName p.1).Nodup →
      (buildArchive entries).length = entries.length) ∧
    (∀ name ∈ (buildArchive entries).map Prod.fst, ∀ c ∈ name.data,
      isIllegalChar c = false) := by
  have hnames : (buildArchive entries).map Prod.fst =
      firstSeen [] (entries.map fun p => entryName p.1) := by
    have h := buildArchive_names_foldl entries []
    simpa [buildArchive] using h
  have hlen : (buildArchive entries).length =
      (firstSeen [] (entries.map fun p => entryName p.1)).length := by
    rw [← hnames, List.length_map]
  refine ⟨hnames, ?_, ?_, ?_⟩
  · rw [hlen]
    exact (firstSeen_length_le _ _).trans (by simp)
  · intro hnd
    rw [hlen, firstSeen_eq_self [] _ hnd (by simp)]
    simp
  · intro name hname c hc
    rw [hnames] at hname
    rcases List.mem_map.mp (mem_of_mem_firstSeen _ _ _ hname) with ⟨p, _, rfl⟩
    exact isIllegalChar_entryName p.1 c hc

/-- C5 witness: with a single group the archive has exactly one entry. -/
theorem c5_archive_entries_witness :
    (buildArchive [("A", [[("FleeName", "A")]])]).length = 1 :=
  (c5_archive_entries [("A", [[("FleeName", "A")]])]).2.2.1 (by decide)

/-- C6 counterexample: with 11 distinct group keys the success result's
group-key list is truncated to the first 10 names, so its length does not
equal the group count. -/
theorem c6_counterexample :
    (processExcel c6rows).result.map (fun res => (res.uniqueFiles, res.fileNames.length)) =
      Except.ok (11, 10) := by
  decide

/-- C6 (amended): the success result carries the total filtered row count,
the group count, and the first `min 10 groupCount` group keys of the
enumeration order (a preview capped at 10 names, not the complete list). -/
theorem c6_success_payload (jsonData : List Row) (res : SuccessResult)
    (h : (processExcel jsonData).result = .ok res) :
    res.totalRows = (filterDelivered jsonData).length ∧
    res.uniqueFiles = (jsEntries (groupByFlee (filterDelivered jsonData))).length ∧
    res.fileNames =
      ((jsEntries (groupByFlee (filterDelivered jsonData))).map Prod.fst).take 10 ∧
    res.fileNames.length = min 10 res.uniqueFiles := by
  by_cases h1 : jsonData.length = 0
  · simp [processExcel, h1] at h
  · by_cases h2 : hasColumn (jsonData.head?.getD []) "FleeName"
    · by_cases h3 : (filterDelivered jsonData).length = 0
      · simp [processExcel, h1, h2, h3, List.headD_eq_head?_getD] at h
      · simp only [processExcel, h1, h2, h3, List.headD_eq_head?_getD, Bool.not_true,
          Bool.false_eq_true, if_false, ite_false, reduceIte] at h
        have hres := (Except.ok.inj h).symm
        subst hres
        refine ⟨rfl, rfl, rfl, ?_⟩
        simp [List.length_take, List.length_map]
    · simp [processExcel, h1, h2, List.headD_eq_head?_getD] at h

/-- C6 witness: on a one-row input the payload reports 1 filtered row. -/
theorem c6_success_payload_witness :
    ({ archive := [("A.xlsx", [[("FleeName", "A"), ("FinalStatus", "DELIVERED")]])],
       totalRows := 1, uniqueFiles := 1, fileNames := ["A"] } : SuccessResult).totalRows =
      (filterDelivered [[("FleeName", "A"), ("FinalStatus", "DELIVERED")]]).length :=
  (c6_success_payload [[("FleeName", "A"), ("FinalStatus", "DELIVERED")]] _ (by decide)).1

/-- C8 counterexample: an input whose single row fails the status filter but
lacks the `FleeName` column terminates with `MissingColumn`, not
`NoMatches`, even though zero rows pass the filter. -/
theorem c8_counterexample :
    filterDelivered [c8row] = [] ∧
    (processExcel [c8row]).result = .error (.missingColumn "FleeName") ∧
    (processExcel [c8row]).result ≠ .error .noMatches := by
  refine ⟨by decide, by decide, by decide⟩

/-- C8 (amended): for inputs that pass the read checks (non-empty, first row
has `FleeName`), the run fails with `NoMatches` exactly when zero rows pass
the status filter; and a run returns no success payload (hence no archive)
exactly when the input is empty, the column is missing, or no row passes. -/
theorem c8_fail_fast (jsonData : List Row) :
    (jsonData ≠ [] → hasColumn (jsonData.headD []) "FleeName" = true →
      ((processExcel jsonData).result = .error .noMatches ↔
        filterDelivered jsonData = [])) ∧
    ((∀ res : SuccessResult, (processExcel jsonData).result ≠ .ok res) ↔
      (jsonData = [] ∨ hasColumn (jsonData.headD []) "FleeName" = false ∨
        filterDelivered jsonData = [])) := by
  by_cases h1 : jsonData.length = 0
  · have hnil : jsonData = [] := List.length_eq_zero.mp h1
    subst hnil
    simp [processExcel]
  · have hne : jsonData ≠ [] := fun h => h1 (by simp [h])
    by_cases h2 : hasColumn (jsonData.head?.getD []) "FleeName"
    · by_cases h3 : (filterDelivered jsonData).length = 0
      · have hfil : filterDelivered jsonData = [] := List.length_eq_zero.mp h3
        simp [processExcel, h1, h2, h3, hne, hfil, List.headD_eq_head?_getD]
      · have hfil : filterDelivered jsonData ≠ [] := fun h => h3 (by simp [h])
        simp [processExcel, h1, h2, h3, hne, hfil, List.headD_eq_head?_getD]
    · have hfalse : hasColumn (jsonData.head?.getD []) "FleeName" = false := by
        simpa using h2
      simp [processExcel, h1, hfalse, hne, List.headD_eq_head?_getD]

/-- C8 witness: a non-empty input with the `FleeName` column and no delivered
row fails with `NoMatches`. -/
theorem c8_fail_fast_witness :
    (processExcel [[("FleeName", "A"), ("FinalStatus", "IN_TRANSIT")]]).result =
      .error .noMatches :=
  ((c8_fail_fast [[("FleeName", "A"), ("FinalStatus", "IN_TRANSIT")]]).1
    (by decide) (by decide)).mpr (by decide)

/-! ## Progress lemmas -/

theorem roundProgress_mono (n i j : Nat) (h : i ≤ j) :
    roundProgress i n ≤ roundProgress j n :=
  Nat.div_le_div_right (by omega)

theorem roundProgress_ge_60 (n i : Nat) (hn : 1 ≤ n) :
    60 ≤ roundProgress i n := by
  unfold roundProgress
  rw [Nat.le_div_iff_mul_le (by omega)]
  omega

theorem roundProgress_le_90 (n i : Nat) (hi : i ≤ n) :
    roundProgress i n ≤ 90 := by
  unfold roundProgress
  by_cases hn : n = 0
  · subst hn
    simp
  · have hlt : (121 * n + 60 * i) / (2 * n) < 91 := by
      rw [Nat.div_lt_iff_lt_mul (by omega)]
      omega
    omega

theorem progress_list_chain (n : Nat) (hn : 1 ≤ n) :
    (([10, 25, 40, 50, 60] ++
      (List.range n).map (fun i => roundProgress (i + 1) n) ++
      [95, 100] : List Nat)).Chain' (· ≤ ·) := by
  rw [List.chain'_iff_pairwise]
  refine List.pairwise_append.mpr ⟨List.pairwise_append.mpr ⟨?_, ?_, ?_⟩, ?_, ?_⟩
  · decide
  · rw [List.pairwise_map]
    refine (List.pairwise_lt_range n).imp ?_
    intro a b hab
    exact roundProgress_mono n _ _ (by omega)
  · intro x hx y hy
    rcases List.mem_map.mp hy with ⟨i, _, rfl⟩
    have h60 := roundProgress_ge_60 n (i + 1) hn
    fin_cases hx <;> omega
  · decide
  · intro x hx y hy
    rcases List.mem_append.mp hx with hx1 | hx2
    · fin_cases hx1 <;> fin_cases hy <;> decide
    · rcases List.mem_map.mp hx2 with ⟨i, hi, rfl⟩
      have h90 := roundProgress_le_90 n (i + 1) (by simpa using List.mem_range.mp hi)
      fin_cases hy <;> omega

theorem jsEntries_groupByFlee_length_pos (rows : List Row) (h : rows ≠ []) :
    1 ≤ (jsEntries (groupByFlee rows)).length := by
  rw [(jsEntries_perm (groupByFlee rows)).length_eq]
  cases rows with
  | nil => exact absurd rfl h
  | cons r rs =>
      have hkeys : (groupByFlee (r :: rs)).map Prod.fst =
          firstSeen [] ((r :: rs).map fleeKey) := by
        simpa [groupByFlee] using keys_foldl_insert (r :: rs) []
      have hlen : (groupByFlee (r :: rs)).length =
          (firstSeen [] ((r :: rs).map fleeKey)).length := by
        rw [← hkeys, List.length_map]
      rw [hlen]
      simp only [List.map_cons, firstSeen]
      rw [if_neg (List.not_mem_nil _)]
      simp

/-- C9: on every successful run the emitted progress sequence is the fixed
prefix `10, 25, 40, 50, 60`, then one value per exported group following
`Math.round(60 + 30 * processedGroups / totalGroups)`, then `95` and the
final `100`; the whole sequence is non-decreasing and every per-group value
lies between 60 and 90. -/
theorem c9_progress_monotone (jsonData : List Row) (res : SuccessResult)
    (h : (processExcel jsonData).result = .ok res) :
    (processExcel jsonData).progress =
      [10, 25, 40, 50, 60] ++
        (List.range res.uniqueFiles).map (fun i => roundProgress (i + 1) res.uniqueFiles) ++
        [95, 100] ∧
    (processExcel jsonData).progress.Chain' (· ≤ ·) ∧
    (processExcel jsonData).progress.getLast? = some 100 ∧
    (∀ i ∈ List.range res.uniqueFiles,
      60 ≤ roundProgress (i + 1) res.uniqueFiles ∧
        roundProgress (i + 1) res.uniqueFiles ≤ 90) := by
  by_cases h1 : jsonData.length = 0
  · simp [processExcel, h1] at h
  · by_cases h2 : hasColumn (jsonData.head?.getD []) "FleeName"
    · by_cases h3 : (filterDelivered jsonData).length = 0
      · simp [processExcel, h1, h2, h3, List.headD_eq_head?_getD] at h
      · have hfil : filterDelivered jsonData ≠ [] := fun hh => h3 (by simp [hh])
        have hn : 1 ≤ (jsEntries (groupByFlee (filterDelivered jsonData))).length :=
          jsEntries_groupByFlee_length_pos _ hfil
        simp only [processExcel, h1, h2, h3, List.headD_eq_head?_getD, Bool.not_true,
          Bool.false_eq_true, if_false, ite_false, reduceIte] at h ⊢
        have hres := (Except.ok.inj h).symm
        subst hres
        refine ⟨rfl, progress_list_chain _ hn, ?_, ?_⟩
        · rw [List.getLast?_append]
          rfl
        · intro i hi
          exact ⟨roundProgress_ge_60 _ _ hn,
            roundProgress_le_90 _ _ (by simpa using List.mem_range.mp hi)⟩
    · simp [processExcel, h1, h2, List.headD_eq_head?_getD] at h

/-- C9 witness: the one-group run's progress sequence. -/
theorem c9_progress_monotone_witness :
    (processExcel [[("FleeName", "A"), ("FinalStatus", "DELIVERED")]]).progress.Chain'
      (· ≤ ·) :=
  (c9_progress_monotone [[("FleeName", "A"), ("FinalStatus", "DELIVERED")]]
    { archive := [("A.xlsx", [[("FleeName", "A"), ("FinalStatus", "DELIVERED")]])],
      totalRows := 1, uniqueFiles := 1, fileNames := ["A"] } (by decide)).2.1
